import Mathlib

/-!
Verification development for the tf-drift bounded-concurrency orchestration
engine (src/main.rs).  The four core components are shallowly embedded:

* Output Classifier (`parse_plan_changes`): a pure text scrape, embedded over
  `List Char` with a faithful model of the Rust `str::lines` function,
  `split_whitespace`, and checked `u32` parsing (values are `Nat`, the 32-bit
  bound `4294967296` is enforced exactly where the Rust parser enforces it,
  and the sum wraps modulo `2 ^ 32` as 32-bit unsigned arithmetic does).
* Unit Executor (`run_terragrunt_plan`): the external process is abstracted
  as a `ProcOutcome` value (launch failure, or an exit with a success flag
  and captured streams); the function mirrors the Rust `match`.
* Discovery (`find_tg_dirs`): the filesystem is abstracted as an `FsEntry`
  tree with a readability flag per entry; the walk is depth-first preorder,
  skipping unreadable entries, exactly as the `filter_map(|e| e.ok())`
  iteration does.
* Bounded Scheduler (`run_plans`): explicit state passing over `SchedState`;
  completion order and per-join success are oracles (`pick`, `joinOk`), so
  theorems quantify over every schedule.  The `peak` field instruments the
  maximum number of spawned-but-not-yet-joined tasks, which only ever grows
  at a spawn.
-/

namespace TfDrift

/-! ### Output Classifier: string primitives -/

/-- `listStartsWith needle hay` : `hay` begins with `needle` (Rust `str::starts_with` on chars). -/
def listStartsWith : List Char → List Char → Bool
  | [], _ => true
  | _ :: _, [] => false
  | a :: as, b :: bs => if a = b then listStartsWith as bs else false

/-- `listContainsSub needle hay` : `needle` occurs contiguously in `hay` (Rust `str::contains`). -/
def listContainsSub (needle : List Char) : List Char → Bool
  | [] => needle.isEmpty
  | b :: bs => listStartsWith needle (b :: bs) || listContainsSub needle bs

/-- `listEndsWith suffix l` : `l` ends with `suffix` (Rust `str::ends_with`). -/
def listEndsWith (suffix l : List Char) : Bool :=
  listStartsWith suffix.reverse l.reverse

/-- Split on the newline character, keeping empty pieces (so `n` newlines give `n+1` pieces). -/
def splitOnNl : List Char → List (List Char)
  | [] => [[]]
  | c :: cs =>
    if c = '\n' then [] :: splitOnNl cs
    else
      match splitOnNl cs with
      | [] => [[c]]
      | g :: gs => (c :: g) :: gs

/-- Drop one trailing carriage return, used on pieces that were terminated by a newline. -/
def stripCr (l : List Char) : List Char :=
  if l.getLast? = some '\r' then l.dropLast else l

/-- Rust `str::lines`: split at `'\n'`; pieces terminated by `'\n'` lose a trailing `'\r'`;
a final empty piece (text ended with a newline) is dropped; a final non-empty piece is
kept verbatim (a lone trailing `'\r'` with no newline stays). -/
def rustLines (cs : List Char) : List (List Char) :=
  let parts := splitOnNl cs
  let body := parts.dropLast.map stripCr
  match parts.getLast? with
  | some [] => body
  | some l => body ++ [l]
  | none => body

/-- Rust `str::split_whitespace` accumulator: current partial token is `acc` (reversed). -/
def splitWsAux : List Char → List Char → List (List Char)
  | [], acc => if acc.isEmpty then [] else [acc.reverse]
  | c :: rest, acc =>
    if c.isWhitespace then
      if acc.isEmpty then splitWsAux rest []
      else acc.reverse :: splitWsAux rest []
    else splitWsAux rest (c :: acc)

/-- Rust `str::split_whitespace`: maximal runs of non-whitespace characters. -/
def splitWs (l : List Char) : List (List Char) :=
  splitWsAux l []

/-! ### Output Classifier: integer parsing

The Rust `"…".parse::<u32>()` function accepts an optional leading `'+'` followed by one
or more ASCII digits and fails on overflow past `u32::MAX`; the overflow check
happens while accumulating digits (`parseDigitsU32`).  The unbounded
accumulator `natDigitsVal` is the spec-side notion of "a valid non-negative
integer token". -/

/-- Digit accumulator with the 32-bit overflow check Rust performs at each step. -/
def parseDigitsU32 : List Char → Nat → Option Nat
  | [], v => some v
  | c :: rest, v =>
    if c.isDigit then
      if v * 10 + (c.toNat - 48) < 4294967296 then
        parseDigitsU32 rest (v * 10 + (c.toNat - 48))
      else none
    else none

/-- Code-side token parse: Rust `str::parse::<u32>()` (value returned as a `Nat < 2 ^ 32`). -/
def parseU32Tok (cs : List Char) : Option Nat :=
  match cs with
  | [] => none
  | c :: rest =>
    if c = '+' then (if rest.isEmpty then none else parseDigitsU32 rest 0)
    else parseDigitsU32 (c :: rest) 0

/-- Unbounded digit accumulator (mathematical value of the digit string). -/
def natDigitsVal : List Char → Nat → Option Nat
  | [], v => some v
  | c :: rest, v =>
    if c.isDigit then natDigitsVal rest (v * 10 + (c.toNat - 48))
    else none

/-- Spec-side token parse: the token is a valid non-negative integer (optional
leading plus sign, then digits), with no magnitude bound. -/
def parseNatTok (cs : List Char) : Option Nat :=
  match cs with
  | [] => none
  | c :: rest =>
    if c = '+' then (if rest.isEmpty then none else natDigitsVal rest 0)
    else natDigitsVal (c :: rest) 0

/-- The literal no-changes marker phrase checked first by the classifier. -/
def noChangesMarker : List Char := "No changes".toList

/-- The literal marker token identifying the summary line. -/
def planMarker : List Char := "Plan:".toList

/-- Sum of all `u32`-parseable whitespace-delimited tokens of a line, accumulated
in 32-bit unsigned (wrapping) arithmetic, as `numbers.iter().sum::<u32>()` does. -/
def sumTokens32 (l : List Char) : Nat :=
  ((splitWs l).filterMap parseU32Tok).foldl (fun a v => (a + v) % 4294967296) 0

/-- The `for line in output.lines()` loop: first line containing `"Plan:"` wins. -/
def planLineLoop : List (List Char) → Nat
  | [] => 0
  | l :: ls => if listContainsSub planMarker l then sumTokens32 l else planLineLoop ls

/-- Embedding of `parse_plan_changes` from src/main.rs. -/
def parse_plan_changes (output : String) : Nat :=
  if listContainsSub noChangesMarker output.toList then 0
  else planLineLoop (rustLines output.toList)

/-- Spec rendering of the classifier contract, word for word: no-changes marker
first, then the first line containing the plan marker, then the sum (true
mathematical sum) of every token that is a valid non-negative integer. -/
def parsePlanChangesSpec (output : String) : Nat :=
  if listContainsSub noChangesMarker output.toList then 0
  else
    match (rustLines output.toList).find? (fun l => listContainsSub planMarker l) with
    | some l => ((splitWs l).filterMap parseNatTok).foldl (fun a v => a + v) 0
    | none => 0

/-- Amended spec rendering: as `parsePlanChangesSpec`, but only tokens whose
value fits in 32 bits contribute, and the sum wraps modulo `2 ^ 32`. -/
def parsePlanChangesSpec32 (output : String) : Nat :=
  if listContainsSub noChangesMarker output.toList then 0
  else
    match (rustLines output.toList).find? (fun l => listContainsSub planMarker l) with
    | some l =>
        ((splitWs l).filterMap
            (fun t => (parseNatTok t).bind (fun v => if v < 4294967296 then some v else none))).foldl
          (fun a v => (a + v) % 4294967296) 0
    | none => 0

/-! ### Unit Executor

The external `terragrunt plan` process is abstracted as a `ProcOutcome`:
either it could not be launched (the `Err(e)` arm of the Rust `match`, with
the display text of `e`), or it ran to completion with a success flag and the two
captured streams already decoded as (lossy) text. -/

inductive PlanStatus where
  | Success
  | Failed
deriving DecidableEq

structure PlanResult where
  path : String
  status : PlanStatus
  changes_count : Nat
  stdout : String
  stderr : String
  plan_file : String
  error : Option String
deriving DecidableEq

inductive ProcOutcome where
  | launchFailure (msg : String)
  | exited (success : Bool) (stdout stderr : String)

/-- Embedding of `run_terragrunt_plan` from src/main.rs.  `path.join("plan.tfplan")`
is modelled as string concatenation with a separator. -/
def run_terragrunt_plan (path : String) (proc : ProcOutcome) : PlanResult :=
  let plan_file := path ++ "/plan.tfplan"
  match proc with
  | ProcOutcome.exited success stdout stderr =>
    if success then
      { path := path, status := PlanStatus.Success
      , changes_count := parse_plan_changes stdout
      , stdout := stdout, stderr := stderr
      , plan_file := plan_file, error := none }
    else
      { path := path, status := PlanStatus.Failed, changes_count := 0
      , stdout := stdout, stderr := stderr
      , plan_file := "", error := some stderr }
  | ProcOutcome.launchFailure e =>
      { path := path, status := PlanStatus.Failed, changes_count := 0
      , stdout := "", stderr := ""
      , plan_file := "", error := some ("Failed to execute: " ++ e) }

/-! ### Discovery

The filesystem tree is abstracted as an `FsEntry` with a readability flag:
an unreadable entry is one whose walkdir item is an `Err` filtered out by
`filter_map(|e| e.ok())` (and whose subtree is inaccessible).  The walk is
depth-first preorder, yielding each visited entry as
`(containing directory, file name)`. -/

inductive FsEntry where
  | file (name : String) (readable : Bool)
  | dir (name : String) (readable : Bool) (children : List FsEntry)

mutual

/-- The `WalkDir` iteration: all visited entries below (and including) `e`,
whose own path parent is `parent`, in depth-first preorder, skipping
unreadable entries together with their subtrees. -/
def visitEntry : String → FsEntry → List (String × String)
  | parent, FsEntry.file n r => if r then [(parent, n)] else []
  | parent, FsEntry.dir n r cs =>
    if r then (parent, n) :: visitChildren (parent ++ "/" ++ n) cs else []

def visitChildren : String → List FsEntry → List (String × String)
  | _, [] => []
  | parent, c :: cs => visitEntry parent c ++ visitChildren parent cs

end

/-- Rust `str::ends_with` on strings. -/
def strEndsWith (s suffix : String) : Bool :=
  listEndsWith suffix.toList s.toList

/-- Embedding of `find_tg_dirs` from src/main.rs: every visited entry whose
name ends with `".hcl"` contributes its containing directory, duplicates
preserved, in traversal order. -/
def find_tg_dirs (rootParent : String) (root : FsEntry) : List String :=
  (visitEntry rootParent root).filterMap
    (fun en => if strEndsWith en.2 ".hcl" then some en.1 else none)

/-- Specification of the walk: `Visits parent e p n` holds when the entry
named `n` with containing directory `p` is a readable descendant entry of
`e` (every ancestor directory readable as well). -/
inductive Visits : String → FsEntry → String → String → Prop where
  | file {parent n} : Visits parent (FsEntry.file n true) parent n
  | dirSelf {parent n cs} : Visits parent (FsEntry.dir n true cs) parent n
  | dirChild {parent n cs c p m} : c ∈ cs →
      Visits (parent ++ "/" ++ n) c p m →
      Visits parent (FsEntry.dir n true cs) p m

/-! ### Bounded Scheduler

`run_plans` is embedded as explicit state passing.  A `SchedState` holds the
`JoinSet` (`inFlight`: spawned but not yet joined tasks), the accumulated
`results`, the admission counter `count`, the number of `join_next` calls so
far (`joins`), and the instrumentation field `peak`: the largest number of
simultaneously in-flight tasks seen so far (it can only change at a spawn,
because the in-flight set only grows there).  Nondeterminism is captured by
two oracles: `pick j` chooses (modulo the set size) which in-flight task the
`j`-th `join_next` call returns, and `joinOk j` tells whether that join
yields `Ok` (a task-level panic/abort gives `Err`, whose result is dropped
by the `if let Ok(..)` while the task still leaves the set). -/

structure SchedState (α β : Type) where
  inFlight : List α
  results : List β
  count : Nat
  joins : Nat
  peak : Nat
deriving DecidableEq

/-- `tasks.spawn(run_terragrunt_plan(dir)); count += 1;` -/
def spawnTask {α β : Type} (d : α) (s : SchedState α β) : SchedState α β :=
  { s with inFlight := s.inFlight ++ [d]
         , count := s.count + 1
         , peak := max s.peak (s.inFlight.length + 1) }

/-- One `tasks.join_next().await`: if the set is empty it returns `None` and
nothing happens; otherwise the schedule picks a completed task, it leaves the
set, and its result is appended exactly when the join yields `Ok`. -/
def drainOne {α β : Type} (exec : α → β) (joinOk : Nat → Bool) (pick : Nat → Nat)
    (s : SchedState α β) : SchedState α β :=
  if h : s.inFlight.length = 0 then s
  else
    let i : Fin s.inFlight.length :=
      ⟨pick s.joins % s.inFlight.length, Nat.mod_lt _ (Nat.pos_of_ne_zero h)⟩
    { s with inFlight := s.inFlight.eraseIdx i.1
           , joins := s.joins + 1
           , results := if joinOk s.joins then s.results ++ [exec (s.inFlight.get i)]
                        else s.results }

/-- The `for dir in dirs` loop: spawn, bump `count`, and drain one completed
task whenever `count >= max_concurency`. -/
def admitLoop {α β : Type} (exec : α → β) (joinOk : Nat → Bool) (pick : Nat → Nat)
    (N : Nat) : List α → SchedState α β → SchedState α β
  | [], s => s
  | d :: ds, s =>
    admitLoop exec joinOk pick N ds
      (if N ≤ (spawnTask d s).count then drainOne exec joinOk pick (spawnTask d s)
       else spawnTask d s)

/-- The admission loop in the case where the ceiling is never reached:
every unit is spawned and no drain happens. -/
def spawnAll {α β : Type} : List α → SchedState α β → SchedState α β
  | [], s => s
  | d :: ds, s => spawnAll ds (spawnTask d s)

/-- `k` iterations of the final `while let Some(result) = tasks.join_next()` loop. -/
def drainN {α β : Type} (exec : α → β) (joinOk : Nat → Bool) (pick : Nat → Nat) :
    Nat → SchedState α β → SchedState α β
  | 0, s => s
  | k + 1, s => drainN exec joinOk pick k (drainOne exec joinOk pick s)

/-- The final drain loop runs `join_next` exactly once per remaining task. -/
def drainAll {α β : Type} (exec : α → β) (joinOk : Nat → Bool) (pick : Nat → Nat)
    (s : SchedState α β) : SchedState α β :=
  drainN exec joinOk pick s.inFlight.length s

/-- The state at entry of `run_plans`: empty `JoinSet`, no results, `count = 0`. -/
def initState (α β : Type) : SchedState α β :=
  { inFlight := [], results := [], count := 0, joins := 0, peak := 0 }

/-- Embedding of `run_plans` from src/main.rs, under completion-order oracle
`pick` and join-success oracle `joinOk`; `exec` abstracts
the dependence of `run_terragrunt_plan` on the external world. -/
def run_plans {α β : Type} (exec : α → β) (joinOk : Nat → Bool) (pick : Nat → Nat)
    (N : Nat) (dirs : List α) : SchedState α β :=
  drainAll exec joinOk pick (admitLoop exec joinOk pick N dirs (initState α β))

/-! ### Classifier lemmas -/

theorem natDigitsVal_le : ∀ (cs : List Char) (v w : Nat),
    natDigitsVal cs v = some w → v ≤ w := by
  intro cs
  induction cs with
  | nil => intro v w h; simp [natDigitsVal] at h; omega
  | cons c rest ih =>
    intro v w h
    simp only [natDigitsVal] at h
    by_cases hc : c.isDigit
    · rw [if_pos hc] at h
      have := ih _ _ h
      omega
    · rw [if_neg hc] at h; cases h

theorem parseDigitsU32_eq : ∀ (cs : List Char) (v : Nat), v < 4294967296 →
    parseDigitsU32 cs v
      = (natDigitsVal cs v).bind (fun w => if w < 4294967296 then some w else none) := by
  intro cs
  induction cs with
  | nil =>
    intro v hv
    simp [parseDigitsU32, natDigitsVal, hv]
  | cons c rest ih =>
    intro v hv
    simp only [parseDigitsU32, natDigitsVal]
    by_cases hc : c.isDigit
    · rw [if_pos hc, if_pos hc]
      by_cases hlt : v * 10 + (c.toNat - 48) < 4294967296
      · rw [if_pos hlt]
        exact ih _ hlt
      · rw [if_neg hlt]
        cases hnd : natDigitsVal rest (v * 10 + (c.toNat - 48)) with
        | none => simp
        | some w =>
          have hw := natDigitsVal_le _ _ _ hnd
          have hge : ¬ w < 4294967296 := by omega
          simp [hge]
    · rw [if_neg hc, if_neg hc]; simp

theorem parseU32Tok_eq (cs : List Char) :
    parseU32Tok cs
      = (parseNatTok cs).bind (fun w => if w < 4294967296 then some w else none) := by
  match cs with
  | [] => simp [parseU32Tok, parseNatTok]
  | c :: rest =>
    simp only [parseU32Tok, parseNatTok]
    by_cases hp : c = '+'
    · rw [if_pos hp, if_pos hp]
      by_cases h : rest.isEmpty
      · rw [if_pos h, if_pos h]; rfl
      · rw [if_neg h, if_neg h]
        exact parseDigitsU32_eq rest 0 (by omega)
    · rw [if_neg hp, if_neg hp]
      exact parseDigitsU32_eq _ 0 (by omega)

theorem planLineLoop_eq_find (ls : List (List Char)) :
    planLineLoop ls
      = match ls.find? (fun l => listContainsSub planMarker l) with
        | some l => sumTokens32 l
        | none => 0 := by
  induction ls with
  | nil => simp [planLineLoop]
  | cons l ls ih =>
    simp only [planLineLoop, List.find?]
    by_cases h : listContainsSub planMarker l
    · simp [h]
    · simp only [h, if_false]
      rw [ih]
      have h2 : listContainsSub planMarker l = false := by
        revert h; cases listContainsSub planMarker l <;> simp
      simp [h2]

/-! ### Scheduler lemmas -/

theorem initState_inFlight (α β : Type) : (initState α β).inFlight = [] := rfl

theorem initState_results (α β : Type) : (initState α β).results = [] := rfl

theorem initState_peak (α β : Type) : (initState α β).peak = 0 := rfl

theorem drainOne_of_empty {α β : Type} (exec : α → β) (joinOk : Nat → Bool) (pick : Nat → Nat)
    (s : SchedState α β) (h : s.inFlight.length = 0) :
    drainOne exec joinOk pick s = s := by
  simp [drainOne, h]

theorem drainOne_count {α β : Type} (exec : α → β) (joinOk : Nat → Bool) (pick : Nat → Nat)
    (s : SchedState α β) : (drainOne exec joinOk pick s).count = s.count := by
  unfold drainOne
  split <;> rfl

theorem drainOne_peak {α β : Type} (exec : α → β) (joinOk : Nat → Bool) (pick : Nat → Nat)
    (s : SchedState α β) : (drainOne exec joinOk pick s).peak = s.peak := by
  unfold drainOne
  split <;> rfl

theorem drainOne_len {α β : Type} (exec : α → β) (joinOk : Nat → Bool) (pick : Nat → Nat)
    (s : SchedState α β) (h : s.inFlight.length ≠ 0) :
    (drainOne exec joinOk pick s).inFlight.length = s.inFlight.length - 1 := by
  simp only [drainOne, dif_neg h]
  exact List.length_eraseIdx_of_lt (Nat.mod_lt _ (Nat.pos_of_ne_zero h))

theorem drainOne_sum {α β : Type} (exec : α → β) (joinOk : Nat → Bool) (pick : Nat → Nat)
    (s : SchedState α β) (hok : ∀ i, joinOk i = true) (h : s.inFlight.length ≠ 0) :
    (drainOne exec joinOk pick s).results.length + (drainOne exec joinOk pick s).inFlight.length
      = s.results.length + s.inFlight.length := by
  simp only [drainOne, dif_neg h, hok s.joins, if_true]
  have := List.length_eraseIdx_of_lt
    (Nat.mod_lt (pick s.joins) (Nat.pos_of_ne_zero h) : pick s.joins % s.inFlight.length < s.inFlight.length)
  simp only [List.length_append, List.length_cons, List.length_nil, this]
  omega

theorem admitLoop_sum {α β : Type} (exec : α → β) (joinOk : Nat → Bool) (pick : Nat → Nat)
    (N : Nat) (hok : ∀ i, joinOk i = true) :
    ∀ (ds : List α) (s : SchedState α β),
      (admitLoop exec joinOk pick N ds s).results.length
          + (admitLoop exec joinOk pick N ds s).inFlight.length
        = s.results.length + s.inFlight.length + ds.length := by
  intro ds
  induction ds with
  | nil => intro s; simp [admitLoop]
  | cons d ds ih =>
    intro s
    simp only [admitLoop]
    rw [ih]
    split
    · have hne : (spawnTask d s).inFlight.length ≠ 0 := by simp [spawnTask]
      rw [drainOne_sum exec joinOk pick _ hok hne]
      simp [spawnTask]
      omega
    · simp [spawnTask]
      omega

theorem drainN_sum {α β : Type} (exec : α → β) (joinOk : Nat → Bool) (pick : Nat → Nat)
    (hok : ∀ i, joinOk i = true) :
    ∀ (k : Nat) (s : SchedState α β),
      (drainN exec joinOk pick k s).results.length + (drainN exec joinOk pick k s).inFlight.length
        = s.results.length + s.inFlight.length := by
  intro k
  induction k with
  | zero => intro s; rfl
  | succ k ih =>
    intro s
    simp only [drainN]
    rw [ih]
    by_cases h : s.inFlight.length = 0
    · rw [drainOne_of_empty exec joinOk pick s h]
    · exact drainOne_sum exec joinOk pick s hok h

theorem drainN_peak {α β : Type} (exec : α → β) (joinOk : Nat → Bool) (pick : Nat → Nat) :
    ∀ (k : Nat) (s : SchedState α β), (drainN exec joinOk pick k s).peak = s.peak := by
  intro k
  induction k with
  | zero => intro s; rfl
  | succ k ih =>
    intro s
    simp only [drainN]
    rw [ih, drainOne_peak]

theorem drainN_empty {α β : Type} (exec : α → β) (joinOk : Nat → Bool) (pick : Nat → Nat) :
    ∀ (k : Nat) (s : SchedState α β), s.inFlight.length ≤ k →
      (drainN exec joinOk pick k s).inFlight = [] := by
  intro k
  induction k with
  | zero =>
    intro s h
    exact List.eq_nil_of_length_eq_zero (Nat.le_zero.mp h)
  | succ k ih =>
    intro s h
    simp only [drainN]
    by_cases h0 : s.inFlight.length = 0
    · rw [drainOne_of_empty exec joinOk pick s h0]
      exact ih s (by omega)
    · exact ih _ (by rw [drainOne_len exec joinOk pick s h0]; omega)

theorem admitLoop_inv {α β : Type} (exec : α → β) (joinOk : Nat → Bool) (pick : Nat → Nat)
    (N : Nat) :
    ∀ (ds : List α) (s : SchedState α β),
      s.inFlight.length ≤ s.count → s.inFlight.length + 1 ≤ N → s.peak ≤ N →
      ((admitLoop exec joinOk pick N ds s).inFlight.length
          ≤ (admitLoop exec joinOk pick N ds s).count
        ∧ (admitLoop exec joinOk pick N ds s).inFlight.length + 1 ≤ N
        ∧ (admitLoop exec joinOk pick N ds s).peak ≤ N) := by
  intro ds
  induction ds with
  | nil => intro s h1 h2 h3; exact ⟨h1, h2, h3⟩
  | cons d ds ih =>
    intro s h1 h2 h3
    have hpeak : (spawnTask d s).peak ≤ N := by
      simp only [spawnTask]
      exact max_le h3 h2
    simp only [admitLoop]
    split
    · have hne : (spawnTask d s).inFlight.length ≠ 0 := by simp [spawnTask]
      refine ih _ ?_ ?_ ?_
      · rw [drainOne_len exec joinOk pick _ hne, drainOne_count]
        simp only [spawnTask, List.length_append, List.length_cons, List.length_nil]
        omega
      · rw [drainOne_len exec joinOk pick _ hne]
        simp only [spawnTask, List.length_append, List.length_cons, List.length_nil]
        omega
      · rw [drainOne_peak]
        exact hpeak
    · rename_i hcond
      have hc : ¬ N ≤ s.count + 1 := by
        simpa [spawnTask] using hcond
      refine ih _ ?_ ?_ ?_
      · simp only [spawnTask, List.length_append, List.length_cons, List.length_nil]
        omega
      · simp only [spawnTask, List.length_append, List.length_cons, List.length_nil]
        omega
      · exact hpeak

theorem admitLoop_zero {α β : Type} (exec : α → β) (joinOk : Nat → Bool) (pick : Nat → Nat) :
    ∀ (ds : List α) (s : SchedState α β), s.inFlight = [] →
      ((admitLoop exec joinOk pick 0 ds s).inFlight = []
        ∧ (admitLoop exec joinOk pick 0 ds s).peak ≤ max s.peak 1) := by
  intro ds
  induction ds with
  | nil =>
    intro s h
    exact ⟨h, le_max_left _ _⟩
  | cons d ds ih =>
    intro s h
    simp only [admitLoop, if_pos (Nat.zero_le _)]
    have hne : (spawnTask d s).inFlight.length ≠ 0 := by simp [spawnTask]
    have hlen : (drainOne exec joinOk pick (spawnTask d s)).inFlight.length = 0 := by
      rw [drainOne_len exec joinOk pick _ hne]
      simp [spawnTask, h]
    have hemp : (drainOne exec joinOk pick (spawnTask d s)).inFlight = [] :=
      List.eq_nil_of_length_eq_zero hlen
    have hpk : (drainOne exec joinOk pick (spawnTask d s)).peak = max s.peak 1 := by
      rw [drainOne_peak]
      simp [spawnTask, h]
    rcases ih _ hemp with ⟨hA, hB⟩
    refine ⟨hA, ?_⟩
    rw [hpk] at hB
    omega

theorem spawnAll_inFlight {α β : Type} :
    ∀ (ds : List α) (s : SchedState α β), (spawnAll ds s).inFlight = s.inFlight ++ ds := by
  intro ds
  induction ds with
  | nil => intro s; simp [spawnAll]
  | cons d ds ih =>
    intro s
    simp [spawnAll, ih, spawnTask]

theorem admitLoop_no_drain {α β : Type} (exec : α → β) (joinOk : Nat → Bool) (pick : Nat → Nat)
    (N : Nat) :
    ∀ (ds : List α) (s : SchedState α β), s.count + ds.length < N →
      admitLoop exec joinOk pick N ds s = spawnAll ds s := by
  intro ds
  induction ds with
  | nil => intro s _; rfl
  | cons d ds ih =>
    intro s h
    simp only [List.length_cons] at h
    have hcond : ¬ N ≤ (spawnTask d s).count := by
      simp only [spawnTask]
      omega
    simp only [admitLoop, spawnAll, if_neg hcond]
    exact ih _ (by simp only [spawnTask]; omega)

theorem admitLoop_exact {α β : Type} (exec : α → β) (joinOk : Nat → Bool) (pick : Nat → Nat)
    (N : Nat) :
    ∀ (ds : List α) (s : SchedState α β), ds ≠ [] → s.count + ds.length = N →
      admitLoop exec joinOk pick N ds s = drainOne exec joinOk pick (spawnAll ds s) := by
  intro ds
  induction ds with
  | nil => intro s h; exact absurd rfl h
  | cons d ds ih =>
    intro s _ h
    cases ds with
    | nil =>
      simp only [List.length_cons, List.length_nil] at h
      have hcond : N ≤ (spawnTask d s).count := by
        simp only [spawnTask]
        omega
      simp only [admitLoop, spawnAll, if_pos hcond]
    | cons e ds2 =>
      simp only [List.length_cons] at h
      have hcond : ¬ N ≤ (spawnTask d s).count := by
        simp only [spawnTask]
        omega
      simp only [admitLoop, spawnAll, if_neg hcond]
      exact ih _ (by simp) (by simp only [spawnTask, List.length_cons]; omega)

/-! ### Scheduler claims -/

/-- Claim C1 (conservation of outcomes): for every concurrency ceiling `N ≥ 1`,
every list of work units, every completion order and every execution outcome
function, if every join yields a result (no task-level join failure) then the
result set returned by `run_plans` has exactly one entry per work unit. -/
theorem c1_conservation {α β : Type} (exec : α → β) (joinOk : Nat → Bool) (pick : Nat → Nat)
    (N : Nat) (dirs : List α) (_hN : 1 ≤ N) (hok : ∀ i, joinOk i = true) :
    (run_plans exec joinOk pick N dirs).results.length = dirs.length := by
  unfold run_plans drainAll
  have h1 := admitLoop_sum exec joinOk pick N hok dirs (initState α β)
  have h2 := drainN_sum exec joinOk pick hok
    (admitLoop exec joinOk pick N dirs (initState α β)).inFlight.length
    (admitLoop exec joinOk pick N dirs (initState α β))
  have h3 := drainN_empty exec joinOk pick
    (admitLoop exec joinOk pick N dirs (initState α β)).inFlight.length
    (admitLoop exec joinOk pick N dirs (initState α β)) le_rfl
  rw [h3] at h2
  simp only [initState_results, initState_inFlight, List.length_nil] at h1
  simp only [List.length_nil] at h2
  omega

theorem c1_conservation_witness :
    (run_plans (fun a : Nat => a) (fun _ => true) (fun _ => 0) 2 [5, 6, 7]).results.length = 3 :=
  c1_conservation (fun a : Nat => a) (fun _ => true) (fun _ => 0) 2 [5, 6, 7]
    (by decide) (fun _ => rfl)

/-- Claim C2 (bounded concurrency): for every ceiling `N ≥ 1`, every list of
work units and every schedule, the number of simultaneously in-flight unit
executions (instrumented by `peak`, the running maximum of the size of the
spawned-but-not-joined set) never exceeds `N`, and `run_plans` returns only
after every admitted unit has been joined (final in-flight set empty). -/
theorem c2_bounded_concurrency {α β : Type} (exec : α → β) (joinOk : Nat → Bool)
    (pick : Nat → Nat) (N : Nat) (dirs : List α) (hN : 1 ≤ N) :
    (run_plans exec joinOk pick N dirs).peak ≤ N ∧
    (run_plans exec joinOk pick N dirs).inFlight = [] := by
  unfold run_plans drainAll
  have hinv := admitLoop_inv exec joinOk pick N dirs (initState α β)
    (by simp [initState]) (by simp [initState]; omega) (by simp [initState])
  constructor
  · rw [drainN_peak]
    exact hinv.2.2
  · exact drainN_empty exec joinOk pick _ _ le_rfl

theorem c2_bounded_concurrency_witness :
    (run_plans (fun a : Nat => a) (fun _ => true) (fun _ => 0) 2 [5, 6, 7]).peak ≤ 2 ∧
    (run_plans (fun a : Nat => a) (fun _ => true) (fun _ => 0) 2 [5, 6, 7]).inFlight = [] :=
  c2_bounded_concurrency (fun a : Nat => a) (fun _ => true) (fun _ => 0) 2 [5, 6, 7] (by decide)

/-- Claim C8 (ceiling boundary equivalence): for every list of work units of
length `k` and every ceiling `N > k`, `run_plans` with ceiling `N` produces
exactly the same final state (same results in the same order, same peak
admission level, same join trace) as `run_plans` with ceiling `k`. -/
theorem c8_ceiling_boundary {α β : Type} (exec : α → β) (joinOk : Nat → Bool)
    (pick : Nat → Nat) (N : Nat) (dirs : List α) (h : dirs.length < N) :
    run_plans exec joinOk pick N dirs = run_plans exec joinOk pick dirs.length dirs := by
  cases dirs with
  | nil => rfl
  | cons d ds =>
    unfold run_plans
    have h1 := admitLoop_no_drain exec joinOk pick N (d :: ds) (initState α β)
      (by simp only [initState]; simpa using h)
    have h2 := admitLoop_exact exec joinOk pick (d :: ds).length (d :: ds) (initState α β)
      (by simp) (by simp [initState])
    rw [h1, h2]
    unfold drainAll
    have hIF : (spawnAll (d :: ds) (initState α β)).inFlight = d :: ds := by
      rw [spawnAll_inFlight]
      rfl
    have hne : (spawnAll (d :: ds) (initState α β)).inFlight.length ≠ 0 := by
      rw [hIF]
      simp
    have hlen : (drainOne exec joinOk pick (spawnAll (d :: ds) (initState α β))).inFlight.length
        = ds.length := by
      rw [drainOne_len exec joinOk pick _ hne, hIF]
      simp
    rw [hlen, hIF]
    simp only [List.length_cons]
    rfl

theorem c8_ceiling_boundary_witness :
    run_plans (fun a : Nat => a) (fun _ => true) (fun _ => 0) 5 [1, 2, 3]
      = run_plans (fun a : Nat => a) (fun _ => true) (fun _ => 0) 3 [1, 2, 3] :=
  c8_ceiling_boundary (fun a : Nat => a) (fun _ => true) (fun _ => 0) 5 [1, 2, 3] (by decide)

/-- Claim C9 (ceiling 0 edge case): with concurrency ceiling `0` the drain
condition fires on every admission, so each unit is joined immediately after
being spawned (never more than one in flight: `peak ≤ 1`, and the in-flight
set is already empty when the admission loop ends), `run_plans` still
terminates normally with an empty in-flight set, and — when every join
yields a result, as in the proviso of C1 — the result set still has one outcome
per work unit. -/
theorem c9_zero_ceiling {α β : Type} (exec : α → β) (joinOk : Nat → Bool) (pick : Nat → Nat)
    (dirs : List α) (hok : ∀ i, joinOk i = true) :
    (run_plans exec joinOk pick 0 dirs).results.length = dirs.length ∧
    (run_plans exec joinOk pick 0 dirs).peak ≤ 1 ∧
    (run_plans exec joinOk pick 0 dirs).inFlight = [] ∧
    (admitLoop exec joinOk pick 0 dirs (initState α β)).inFlight = [] := by
  have h0 := admitLoop_zero exec joinOk pick dirs (initState α β) (by simp [initState])
  have hrun : run_plans exec joinOk pick 0 dirs
      = admitLoop exec joinOk pick 0 dirs (initState α β) := by
    unfold run_plans drainAll
    rw [h0.1]
    rfl
  have hsum := admitLoop_sum exec joinOk pick 0 hok dirs (initState α β)
  rw [h0.1] at hsum
  simp only [initState_results, initState_inFlight, List.length_nil] at hsum
  have hpk : (admitLoop exec joinOk pick 0 dirs (initState α β)).peak ≤ 1 := by
    have hB := h0.2
    rw [initState_peak] at hB
    omega
  refine ⟨?_, ?_, ?_, h0.1⟩
  · rw [hrun]
    omega
  · rw [hrun]
    exact hpk
  · rw [hrun]
    exact h0.1

theorem c9_zero_ceiling_witness :
    (run_plans (fun a : Nat => a) (fun _ => true) (fun _ => 0) 0 [5, 6]).results.length = 2 :=
  (c9_zero_ceiling (fun a : Nat => a) (fun _ => true) (fun _ => 0) [5, 6] (fun _ => rfl)).1

/-! ### Unit Executor claims -/

theorem append_plan_suffix_ne_empty (path : String) : path ++ "/plan.tfplan" ≠ "" := by
  intro hcon
  have h2 := congrArg String.length hcon
  rw [String.length_append] at h2
  have h3 : ("/plan.tfplan" : String).length = 12 := by decide
  have h0 : ("" : String).length = 0 := rfl
  simp only [h3, h0] at h2
  omega

/-- Claim C4 (outcome invariant): every `PlanResult` produced by
`run_terragrunt_plan` satisfies: `Success` implies `error` is absent and
`plan_file` is non-empty; `Failed` implies `changes_count = 0` and
`plan_file` is the empty string. -/
theorem c4_outcome_invariant (path : String) (proc : ProcOutcome) :
    ((run_terragrunt_plan path proc).status = PlanStatus.Success →
      (run_terragrunt_plan path proc).error = none
        ∧ (run_terragrunt_plan path proc).plan_file ≠ "") ∧
    ((run_terragrunt_plan path proc).status = PlanStatus.Failed →
      (run_terragrunt_plan path proc).changes_count = 0
        ∧ (run_terragrunt_plan path proc).plan_file = "") := by
  cases proc with
  | launchFailure e =>
    refine ⟨fun h => ?_, fun _ => ⟨rfl, rfl⟩⟩
    exact PlanStatus.noConfusion h
  | exited ok out err =>
    cases ok with
    | false => exact ⟨fun h => PlanStatus.noConfusion h, fun _ => ⟨rfl, rfl⟩⟩
    | true =>
      refine ⟨fun _ => ⟨rfl, ?_⟩, fun h => PlanStatus.noConfusion h⟩
      exact append_plan_suffix_ne_empty path

theorem c4_outcome_invariant_witness :
    ((run_terragrunt_plan "unit" (ProcOutcome.exited true "o" "e")).error = none
      ∧ (run_terragrunt_plan "unit" (ProcOutcome.exited true "o" "e")).plan_file ≠ "") ∧
    ((run_terragrunt_plan "unit" (ProcOutcome.exited false "o" "e")).changes_count = 0
      ∧ (run_terragrunt_plan "unit" (ProcOutcome.exited false "o" "e")).plan_file = "") :=
  ⟨(c4_outcome_invariant "unit" (ProcOutcome.exited true "o" "e")).1 rfl,
   (c4_outcome_invariant "unit" (ProcOutcome.exited false "o" "e")).2 rfl⟩

/-- Claim C5 (process-failure outcome): when the process launches and exits
with a non-success status, the outcome is `Failed` with `changes_count = 0`,
empty `plan_file`, the captured streams in `stdout`/`stderr`, and `error`
exactly the captured standard-error text (verbatim, possibly empty). -/
theorem c5_process_failure (path out err : String) :
    run_terragrunt_plan path (ProcOutcome.exited false out err)
      = { path := path, status := PlanStatus.Failed, changes_count := 0
        , stdout := out, stderr := err, plan_file := "", error := some err } := rfl

/-- Claim C6 (launch-failure outcome): when the process cannot be launched at
all, the outcome is `Failed` with empty `stdout`, `stderr` and `plan_file`,
`changes_count = 0`, and `error` present holding a descriptive launch-failure
message, which is never equal to the (empty) captured stderr. -/
theorem c6_launch_failure (path msg : String) :
    run_terragrunt_plan path (ProcOutcome.launchFailure msg)
      = { path := path, status := PlanStatus.Failed, changes_count := 0
        , stdout := "", stderr := "", plan_file := ""
        , error := some ("Failed to execute: " ++ msg) } ∧
    (run_terragrunt_plan path (ProcOutcome.launchFailure msg)).error
      ≠ some ((run_terragrunt_plan path (ProcOutcome.launchFailure msg)).stderr) := by
  refine ⟨rfl, fun hcon => ?_⟩
  have h1 : ("Failed to execute: " ++ msg) = "" := Option.some.inj hcon
  have h2 := congrArg String.length h1
  rw [String.length_append] at h2
  have h3 : ("Failed to execute: " : String).length = 19 := by decide
  have h0 : ("" : String).length = 0 := rfl
  simp only [h3, h0] at h2
  omega

theorem c6_launch_failure_witness :
    run_terragrunt_plan "unit" (ProcOutcome.launchFailure "No such file or directory (os error 2)")
      = { path := "unit", status := PlanStatus.Failed, changes_count := 0
        , stdout := "", stderr := "", plan_file := ""
        , error := some ("Failed to execute: " ++ "No such file or directory (os error 2)") } ∧
    (run_terragrunt_plan "unit"
        (ProcOutcome.launchFailure "No such file or directory (os error 2)")).error
      ≠ some ((run_terragrunt_plan "unit"
        (ProcOutcome.launchFailure "No such file or directory (os error 2)")).stderr) :=
  c6_launch_failure "unit" "No such file or directory (os error 2)"

/-! ### Discovery claims -/

mutual

theorem mem_visitEntry : ∀ (e : FsEntry) (parent p n : String),
    ((p, n) ∈ visitEntry parent e ↔ Visits parent e p n)
  | FsEntry.file m r, parent, p, n => by
    cases r with
    | false =>
      simp only [visitEntry, Bool.false_eq_true, if_false, List.not_mem_nil, false_iff]
      exact fun h => nomatch h
    | true =>
      constructor
      · intro h
        simp only [visitEntry, if_true] at h
        have h2 := List.mem_singleton.mp h
        cases h2
        exact Visits.file
      · intro h
        cases h with
        | file => simp [visitEntry]
  | FsEntry.dir m r cs, parent, p, n => by
    cases r with
    | false =>
      simp only [visitEntry, Bool.false_eq_true, if_false, List.not_mem_nil, false_iff]
      exact fun h => nomatch h
    | true =>
      constructor
      · intro h
        simp only [visitEntry, if_true, List.mem_cons] at h
        rcases h with h | h
        · cases h
          exact Visits.dirSelf
        · rcases (mem_visitChildren cs (parent ++ "/" ++ m) p n).mp h with ⟨c, hc, hv⟩
          exact Visits.dirChild hc hv
      · intro h
        cases h with
        | dirSelf => simp [visitEntry]
        | dirChild hc hv =>
          simp only [visitEntry, if_true, List.mem_cons]
          exact Or.inr ((mem_visitChildren cs (parent ++ "/" ++ m) p n).mpr ⟨_, hc, hv⟩)

theorem mem_visitChildren : ∀ (cs : List FsEntry) (parent p n : String),
    ((p, n) ∈ visitChildren parent cs ↔ ∃ c, c ∈ cs ∧ Visits parent c p n)
  | [], parent, p, n => by simp [visitChildren]
  | c :: cs, parent, p, n => by
    simp only [visitChildren, List.mem_append]
    rw [mem_visitEntry c parent p n, mem_visitChildren cs parent p n]
    constructor
    · rintro (h | ⟨c2, hc2, hv⟩)
      · exact ⟨c, List.mem_cons_self c cs, h⟩
      · exact ⟨c2, List.mem_cons_of_mem _ hc2, hv⟩
    · rintro ⟨c2, hc2, hv⟩
      rcases List.mem_cons.mp hc2 with h2 | h2
      · subst h2
        exact Or.inl hv
      · exact Or.inr ⟨c2, h2, hv⟩

end

/-- Claim C7 (discovery): the walk yields exactly the readable descendant
entries (an entry is yielded iff it and all its ancestor directories are
readable: unreadable entries and their subtrees are silently skipped and the
walk is a total function, never failing); `find_tg_dirs` yields the
containing directory of exactly those visited entries whose name ends in the
`.hcl` marker suffix, duplicates preserved in traversal order; in particular,
a tree with two directories each holding one marker file and one directory
with none yields exactly those two directories, a directory with two marker
files is yielded twice, and a marker file below an unreadable directory is
not found. -/
theorem c7_discovery :
    (∀ (parent : String) (e : FsEntry) (p n : String),
        ((p, n) ∈ visitEntry parent e ↔ Visits parent e p n)) ∧
    (∀ (parent : String) (e : FsEntry) (p : String),
        (p ∈ find_tg_dirs parent e
          ↔ ∃ n, Visits parent e p n ∧ strEndsWith n ".hcl" = true)) ∧
    find_tg_dirs "." (FsEntry.dir "root" true
      [FsEntry.dir "a" true [FsEntry.file "terragrunt.hcl" true],
       FsEntry.dir "b" true [FsEntry.file "x.hcl" true],
       FsEntry.dir "c" true [FsEntry.file "y.txt" true]]) = ["./root/a", "./root/b"] ∧
    find_tg_dirs "." (FsEntry.dir "d" true
      [FsEntry.file "a.hcl" true, FsEntry.file "b.hcl" true]) = ["./d", "./d"] ∧
    find_tg_dirs "." (FsEntry.dir "root" true
      [FsEntry.dir "bad" false [FsEntry.file "z.hcl" true]]) = [] := by
  refine ⟨fun parent e p n => mem_visitEntry e parent p n, ?_, by decide, by decide, by decide⟩
  intro parent e p
  unfold find_tg_dirs
  rw [List.mem_filterMap]
  constructor
  · rintro ⟨⟨q, m⟩, hmem, hf⟩
    by_cases hsuf : strEndsWith m ".hcl" = true
    · rw [if_pos hsuf] at hf
      have hq : q = p := Option.some.inj hf
      rw [hq] at hmem
      exact ⟨m, (mem_visitEntry e parent p m).mp hmem, hsuf⟩
    · rw [if_neg hsuf] at hf
      exact absurd hf (Option.noConfusion)
  · rintro ⟨n, hv, hsuf⟩
    refine ⟨(p, n), (mem_visitEntry e parent p n).mpr hv, ?_⟩
    rw [if_pos hsuf]

/-! ### Output Classifier claims -/

theorem parse_eq_spec32 (s : String) : parse_plan_changes s = parsePlanChangesSpec32 s := by
  unfold parse_plan_changes parsePlanChangesSpec32
  by_cases h : listContainsSub noChangesMarker s.toList = true
  · rw [if_pos h, if_pos h]
  · rw [if_neg h, if_neg h]
    rw [planLineLoop_eq_find]
    cases hf : (rustLines s.toList).find? (fun l => listContainsSub planMarker l) with
    | none => rfl
    | some l =>
      show sumTokens32 l = _
      unfold sumTokens32
      have hfun : parseU32Tok
          = fun t => (parseNatTok t).bind (fun v => if v < 4294967296 then some v else none) :=
        funext parseU32Tok_eq
      rw [hfun]

/-- Claim C3 (amended): the classifier returns 0 whenever the text contains
the no-changes marker phrase, this check preceding numeric parsing;
otherwise it finds the first line containing the literal token "Plan:",
splits that line on whitespace, parses every token that is a valid
non-negative integer representable in 32 bits (tokens beyond 4294967295 are
ignored), and returns their sum computed in 32-bit wrapping arithmetic
(e.g. the line "Plan: 2 to add, 0 to change, 1 to destroy." yields 3);
if no such line exists it returns 0. -/
theorem c3_classifier_amended :
    (∀ s : String, parse_plan_changes s = parsePlanChangesSpec32 s) ∧
    parse_plan_changes "Plan: 2 to add, 0 to change, 1 to destroy." = 3 :=
  ⟨parse_eq_spec32, by decide⟩

/-- Claim C3 counterexample: on the input "Plan: 4294967296" the code returns
0 — the token is a valid non-negative integer but exceeds the 32-bit bound,
so the parser in the code rejects it — while the algorithm of the claim (sum every
token that is a valid non-negative integer) yields 4294967296. -/
theorem c3_classifier_counterexample :
    parse_plan_changes "Plan: 4294967296" = 0 ∧
    parsePlanChangesSpec "Plan: 4294967296" = 4294967296 ∧
    parse_plan_changes "Plan: 4294967296" ≠ parsePlanChangesSpec "Plan: 4294967296" :=
  ⟨by decide, by decide, by decide⟩

/-- Claim C10 (32-bit numeric bound): a token parses for the code exactly when
it is a valid non-negative integer whose value is at most 4294967295 — a
valid integer token beyond that bound is silently ignored (concretely,
"Plan: 4294967296 7" classifies as 7) — and the sum is computed in 32-bit
unsigned arithmetic, so an input whose tokens total more than `2 ^ 32 - 1`
does not produce the mathematical sum: "Plan: 4294967295 1" classifies as 0
while the mathematical sum of its integer tokens is 4294967296. -/
theorem c10_u32_bound :
    (∀ (t : List Char) (v : Nat), parseNatTok t = some v → 4294967296 ≤ v →
        parseU32Tok t = none) ∧
    (∀ (t : List Char) (v : Nat), parseNatTok t = some v → v < 4294967296 →
        parseU32Tok t = some v) ∧
    parse_plan_changes "Plan: 4294967296 7" = 7 ∧
    parse_plan_changes "Plan: 4294967295 1" = 0 ∧
    parsePlanChangesSpec "Plan: 4294967295 1" = 4294967296 := by
  refine ⟨?_, ?_, by decide, by decide, by decide⟩
  · intro t v h hge
    rw [parseU32Tok_eq, h]
    show (if v < 4294967296 then some v else none) = none
    rw [if_neg (by omega)]
  · intro t v h hlt
    rw [parseU32Tok_eq, h]
    show (if v < 4294967296 then some v else none) = some v
    rw [if_pos hlt]

theorem c10_u32_bound_witness :
    parseU32Tok ("4294967296".toList) = none ∧ parseU32Tok ("12".toList) = some 12 :=
  ⟨c10_u32_bound.1 ("4294967296".toList) 4294967296 (by decide) (by decide),
   c10_u32_bound.2.1 ("12".toList) 12 (by decide) (by decide)⟩

end TfDrift
